import Mathlib

/-!
Verification development for the `clon` CloudFormation stack manager.

The Go sources are shallowly embedded: Go strings become Lean `String`
(manipulated through structural `List Char` helpers so that everything
kernel-evaluates), Go maps of strings become association lists
`List (String × _)`, pointers to SDK strings become `Option String`
(`aws.StringValue` is `stringValue`), and the remote AWS API is
represented by explicit result values fed into the embedded functions.
-/

/-! ## String helpers (structural, kernel-computable) -/

/-- Does the character list start with the given pattern? (strings.HasPrefix) -/
def chHasLead : List Char → List Char → Bool
  | [], _ => true
  | _ :: _, [] => false
  | c :: cs, d :: ds => c == d && chHasLead cs ds

/-- strings.HasPrefix on strings. -/
def strHasLead (pat s : String) : Bool :=
  chHasLead pat.data s.data

/-- strings.HasSuffix on strings. -/
def strHasTail (pat s : String) : Bool :=
  chHasLead pat.data.reverse s.data.reverse

/-- One scan step of substring search. -/
def chContainsSub (pat : List Char) : List Char → Bool
  | [] => chHasLead pat []
  | c :: cs => chHasLead pat (c :: cs) || chContainsSub pat cs

/-- strings.Contains on strings. -/
def strContainsSub (s pat : String) : Bool :=
  chContainsSub pat.data s.data

/-- strings.TrimPrefix: drop the pattern when it leads the string. -/
def strTrimLead (pat s : String) : String :=
  if strHasLead pat s then ⟨s.data.drop pat.data.length⟩ else s

/-- Split a character list on a separator character. -/
def chSplit (sep : Char) : List Char → List (List Char)
  | [] => [[]]
  | c :: cs =>
    let r := chSplit sep cs
    if c == sep then [] :: r
    else match r with
      | [] => [[c]]
      | p :: ps => (c :: p) :: ps

/-- Split a string on a separator character (strings.Split). -/
def strSplit (sep : Char) (s : String) : List String :=
  (chSplit sep s.data).map (fun cs => ⟨cs⟩)

/-- strings.Join with a separator string. -/
def strJoin (sep : String) : List String → String
  | [] => ""
  | [x] => x
  | x :: y :: rest => x ++ sep ++ strJoin sep (y :: rest)

/-- aws.StringValue: dereference an SDK string pointer, nil becomes "". -/
def stringValue (o : Option String) : String := o.getD ""

/-! ## cfn stack data (src/pkg/cfn/stack_data.go) -/

/-- Raw SDK stack shape (cloudformation.Stack) restricted to the fields
the embedding reads. -/
structure RawStack where
  stackName : Option String
  stackId : Option String
  stackStatus : Option String
  stackStatusReason : Option String
  description : Option String
  roleARN : Option String
  capabilities : List (Option String)
  parameters : List (Option String × Option String)
  tags : List (Option String × Option String)
  outputs : List (Option String × Option String)
deriving DecidableEq

/-- cfn.StackData. -/
structure CfnStackData where
  id : String := ""
  name : String := ""
  description : String := ""
  roleARN : String := ""
  capabilities : List String := []
  parameters : List (String × String) := []
  tags : List (String × String) := []
  templateURL : String := ""
  templateBody : String := ""
  status : String := ""
  statusReason : String := ""
  outputs : List (String × String) := []
deriving DecidableEq

/-- StackStatusNotFound constant. -/
def stackStatusNotFound : String := "STACK_NOT_FOUND"

/-- StackData.IsInProgress. -/
def stackIsInProgress (sd : CfnStackData) : Bool :=
  strHasTail "_IN_PROGRESS" sd.status

/-- StackData.IsComplete. -/
def stackIsComplete (sd : CfnStackData) : Bool :=
  strHasTail "_COMPLETE" sd.status

/-- StackData.IsRollback. -/
def stackIsRollback (sd : CfnStackData) : Bool :=
  strContainsSub sd.status "_ROLLBACK_"

/-- StackData.Exists. -/
def stackDataExists (sd : CfnStackData) : Bool :=
  sd.status != stackStatusNotFound

/-- StackData.unmarshalStack (outputs/parameters/tags flattened through
aws.StringValue exactly as unmarshalOutputs/Parameters/Tags do). -/
def unmarshalStack (s : RawStack) : CfnStackData :=
  { roleARN := stringValue s.roleARN
    name := stringValue s.stackName
    id := stringValue s.stackId
    status := stringValue s.stackStatus
    statusReason := stringValue s.stackStatusReason
    description := stringValue s.description
    capabilities := s.capabilities.map stringValue
    outputs := s.outputs.map (fun kv => (stringValue kv.1, stringValue kv.2))
    parameters := s.parameters.map (fun kv => (stringValue kv.1, stringValue kv.2))
    tags := s.tags.map (fun kv => (stringValue kv.1, stringValue kv.2)) }

/-- newStackData: nil raw stack yields the STACK_NOT_FOUND sentinel with
only the Name field set. -/
def newStackData (stackName : String) (s : Option RawStack) : CfnStackData :=
  match s with
  | none => { name := stackName, status := stackStatusNotFound }
  | some raw => unmarshalStack raw

/-! ## cfn Stack.read (src/pkg/cfn/stack.go) -/

/-- Result of a remote DescribeStacks call: a decoded page, an SDK error
carrying an AWS error code (awserr.Error), or a plain error. -/
inductive DescribeStacksResult where
  | ok (page : List RawStack)
  | awsErr (code msg : String)
  | plainErr (msg : String)
deriving DecidableEq

/-- Stack.read: a "ValidationError" code is swallowed and reported as a
missing stack (nil, nil); an empty Stacks page is also nil. -/
def stackRead (resp : DescribeStacksResult) : Except String (Option RawStack) :=
  match resp with
  | .awsErr code _ =>
    if code = "ValidationError" then .ok none
    else .error "cannot read stack"
  | .plainErr _ => .error "cannot read stack"
  | .ok page =>
    match page with
    | [] => .ok none
    | s :: _ => .ok (some s)

/-- Stack.update body for a single poll: read, then rebuild the cached
snapshot with newStackData. -/
def stackReadSnapshot (name : String) (resp : DescribeStacksResult) :
    Except String CfnStackData :=
  match stackRead resp with
  | .error e => .error e
  | .ok raw => .ok (newStackData name raw)

/-! ## cfn change set data (src/internal/pkg/cfn/change_set_data.go) -/

/-- ResourceTargetDefinition (the Go code dereferences `d.Target`
unconditionally, so the target record is embedded as present). -/
structure RTarget where
  attr : Option String := none
  targetName : Option String := none
  requiresRecreation : Option String := none
deriving DecidableEq

/-- ResourceChangeDetail. -/
structure RChangeDetail where
  changeSource : Option String := none
  causingEntity : Option String := none
  evaluation : Option String := none
  target : RTarget := {}
deriving DecidableEq

/-- ResourceChange. -/
structure RChange where
  logicalResourceId : Option String := none
  resourceType : Option String := none
  action : Option String := none
  replacement : Option String := none
  details : List RChangeDetail := []
deriving DecidableEq

/-- ChangeSetData. -/
structure ChangeSetData where
  id : String := ""
  csName : String := ""
  status : String := ""
  statusReason : String := ""
  executionStatus : String := ""
  stackData : CfnStackData := {}
  isNew : Bool := false
  changes : List RChange := []
deriving DecidableEq

/-- cloudformation.ChangeSetStatusFailed. -/
def changeSetStatusFailed : String := "FAILED"

/-- The provider's "no changes" StatusReason phrase, verbatim. -/
def noChangesReason : String :=
  "The submitted information didn't contain changes. Submit different information to create a change set."

/-- ChangeSetData.IsFailed: the FAILED + no-changes combination is not a
failure; any other FAILED is. -/
def changeSetIsFailed (c : ChangeSetData) : Bool :=
  if c.status = changeSetStatusFailed ∧ c.statusReason = noChangesReason then
    false
  else
    c.status = changeSetStatusFailed

/-- C8: `IsFailed()` returns false for Status = FAILED with exactly the
provider's no-changes StatusReason, true for FAILED with any other
reason, and false for any other status. -/
theorem c8_isFailed_suppression (c : ChangeSetData) :
    changeSetIsFailed c =
      (decide (c.status = changeSetStatusFailed) &&
       !(decide (c.statusReason = noChangesReason))) := by
  unfold changeSetIsFailed
  by_cases h1 : c.status = changeSetStatusFailed <;>
    by_cases h2 : c.statusReason = noChangesReason <;>
    simp [h1, h2]

/-- C10: any DescribeStacks failure whose AWS error code is
"ValidationError" — whatever the message — is reported as a missing
stack: no error, a nil raw stack, and a snapshot with STACK_NOT_FOUND
status and only the Name field set; the outcome is identical to the one
for a genuinely absent stack (empty DescribeStacks page). -/
theorem c10_validation_error_is_not_found (name msg : String) :
    stackRead (.awsErr "ValidationError" msg) = .ok none ∧
    stackReadSnapshot name (.awsErr "ValidationError" msg) =
      .ok { name := name, status := stackStatusNotFound } ∧
    stackReadSnapshot name (.awsErr "ValidationError" msg) =
      stackReadSnapshot name (.ok []) := by
  refine ⟨rfl, rfl, rfl⟩

/-! ## Plan construction (src/pkg/clon/plan.go) -/

/-- DiffString tracks an old/new pair. -/
structure DiffString where
  old : String := ""
  new : String := ""
deriving DecidableEq

/-- DiffString.IsEqual. -/
def diffIsEqual (d : DiffString) : Bool := d.old == d.new

/-- DiffStringMap. -/
abbrev DiffStringMap : Type := List (String × DiffString)

/-- DiffStringMap.HasChange: some entry differs. -/
def diffMapHasChange (m : DiffStringMap) : Bool :=
  m.any (fun kv => !(diffIsEqual kv.2))

/-- Update one destination entry into the accumulating diff map:
existing keys get their `new` side set, unknown keys are inserted with
an empty `old` side. -/
def diffMapInsert (res : List (String × DiffString)) (k v : String) :
    List (String × DiffString) :=
  match res with
  | [] => [(k, { old := "", new := v })]
  | (k0, d0) :: rest =>
    if k0 = k then (k0, { d0 with new := v }) :: rest
    else (k0, d0) :: diffMapInsert rest k v

/-- newDiffStringMap: seed with the src map as `old` values, then fold
the dst map over it. -/
def newDiffStringMap (src dst : List (String × String)) : DiffStringMap :=
  dst.foldl (fun res kv => diffMapInsert res kv.1 kv.2)
    (src.map (fun kv => (kv.1, ({ old := kv.2, new := "" } : DiffString))))

/-- Decoded AWS ARN (aws/arn.ARN). -/
structure ArnParts where
  partition : String
  service : String
  region : String
  accountId : String
  resource : String
deriving DecidableEq

/-- strings.SplitN(s, ":", 6): like Split but the sixth part keeps the
remaining separators. -/
def splitNColon6 (s : String) : List String :=
  let parts := strSplit ':' s
  if parts.length ≤ 6 then parts
  else parts.take 5 ++ [strJoin ":" (parts.drop 5)]

/-- arn.Parse: requires the "arn:" lead and exactly six sections. -/
def arnParse (s : String) : Option ArnParts :=
  if strHasLead "arn:" s then
    match splitNColon6 s with
    | [_, p1, p2, p3, p4, p5] =>
      some { partition := p1, service := p2, region := p3, accountId := p4, resource := p5 }
    | _ => none
  else none

/-- arn.ARN.String: rebuild the textual ARN. -/
def arnString (a : ArnParts) : String :=
  "arn:" ++ a.partition ++ ":" ++ a.service ++ ":" ++ a.region ++ ":" ++
    a.accountId ++ ":" ++ a.resource

/-- clon.StackData: cfn.StackData plus the config name. -/
structure ClonStackData where
  cfnData : CfnStackData := {}
  configName : String := ""
deriving DecidableEq

/-- clon.Plan. -/
structure Plan where
  id : String
  changeSet : ChangeSetData
  stack : ClonStackData
  roleARN : DiffString
  parameters : DiffStringMap
  hasChange : Bool
deriving DecidableEq

/-- Is this change exactly one detail record of the "automatic nested
stack update" template {Automatic, Dynamic, Properties, Never}? -/
def nestedAutoOnly (c : RChange) : Bool :=
  match c.details with
  | [d] =>
    stringValue d.changeSource == "Automatic" &&
    stringValue d.evaluation == "Dynamic" &&
    stringValue d.target.attr == "Properties" &&
    stringValue d.target.requiresRecreation == "Never"
  | _ => false

/-- The loop body of newPlan under ignoreNestedUpdates: scan the changes
and stop with HasChange = true at the first change whose Details is not
a single {Automatic, Dynamic, Properties, Never} record; len(Details)≠1
is itself a change. -/
def hasChangeLoopGo : List RChange → Bool
  | [] => false
  | c :: rest =>
    match c.details with
    | [d] =>
      if stringValue d.changeSource != "Automatic" ||
         stringValue d.evaluation != "Dynamic" ||
         stringValue d.target.attr != "Properties" ||
         stringValue d.target.requiresRecreation != "Never" then
        true
      else
        hasChangeLoopGo rest
    | _ => true

/-- newPlan (src/pkg/clon/plan.go, the variant taking ignoreNestedUpdates):
parse the change-set ARN, strip the "changeSet/" lead from its resource,
diff role and parameters, and, only when ignoreNestedUpdates is set, run
the nested-update filter loop over the changes. The HasChange field is
never assigned on the other branch and keeps its zero value false. -/
def newPlanGo (cs : ChangeSetData) (stack : ClonStackData)
    (ignoreNestedUpdates : Bool) : Option Plan :=
  match arnParse cs.id with
  | none => none
  | some csARN =>
    some
      { id := strTrimLead "changeSet/" csARN.resource
        changeSet := cs
        stack := stack
        roleARN := { old := stack.cfnData.roleARN, new := cs.stackData.roleARN }
        parameters := newDiffStringMap stack.cfnData.parameters cs.stackData.parameters
        hasChange := if ignoreNestedUpdates then hasChangeLoopGo cs.changes else false }

/-- newPlan from the earlier revision of plan.go kept in the repository
(the variant without ignoreNestedUpdates): HasChange is computed as
Parameters.HasChange() ∨ len(Changes) > 0. -/
def newPlanOldGo (cs : ChangeSetData) (stack : ClonStackData) : Option Plan :=
  match arnParse cs.id with
  | none => none
  | some csARN =>
    let params := newDiffStringMap stack.cfnData.parameters cs.stackData.parameters
    some
      { id := strTrimLead "changeSet/" csARN.resource
        changeSet := cs
        stack := stack
        roleARN := { old := stack.cfnData.roleARN, new := cs.stackData.roleARN }
        parameters := params
        hasChange := diffMapHasChange params || decide (cs.changes.length > 0) }

/-- A concrete change set exhibiting the dropped HasChange computation:
remote parameter p = "y" against configured p = "x", plus one pending
resource change. -/
def csChangedExample : ChangeSetData :=
  { id := "arn:aws:cloudformation:eu-central-1:123456789012:changeSet/test-cs-1"
    csName := "test-cs-1"
    status := "CREATE_COMPLETE"
    executionStatus := "AVAILABLE"
    stackData := { name := "demo-A", roleARN := "", parameters := [("p", "x")] }
    isNew := false
    changes := [{ logicalResourceId := some "Bucket"
                  resourceType := some "AWS::S3::Bucket"
                  action := some "Modify"
                  details := [] }] }

/-- The stack snapshot the plan is diffed against in the example. -/
def stackChangedExample : ClonStackData :=
  { cfnData := { name := "demo-A", status := "UPDATE_COMPLETE", parameters := [("p", "y")] }
    configName := "A" }

/-- C1: with IgnoreNestedUpdates = false the code never assigns
HasChange, so a plan whose parameter diff reports a change and whose
change list is non-empty still carries HasChange = false, while the
spec formula Parameters.HasChange() ∨ |Changes| > 0 — implemented
verbatim by the repository's earlier newPlan — yields true. -/
theorem c1_hasChange_not_computed :
    (newPlanGo csChangedExample stackChangedExample false).map Plan.hasChange =
      some false ∧
    diffMapHasChange
      (newDiffStringMap stackChangedExample.cfnData.parameters
        csChangedExample.stackData.parameters) = true ∧
    csChangedExample.changes.length > 0 ∧
    (newPlanOldGo csChangedExample stackChangedExample).map Plan.hasChange =
      some true := by
  refine ⟨by decide, by decide, by decide, by decide⟩

/-- The filter loop marks a change exactly when some change is not a
single {Automatic, Dynamic, Properties, Never} detail record. -/
theorem hasChangeLoopGo_eq_any (cs : List RChange) :
    hasChangeLoopGo cs = cs.any (fun c => !(nestedAutoOnly c)) := by
  induction cs with
  | nil => rfl
  | cons c rest ih =>
    rw [List.any_cons, ← ih]
    rcases h : c.details with _ | ⟨d, _ | ⟨d2, tl⟩⟩
    · simp [hasChangeLoopGo, nestedAutoOnly, h]
    · simp only [hasChangeLoopGo, nestedAutoOnly, h]
      cases h1 : stringValue d.changeSource == "Automatic" <;>
        cases h2 : stringValue d.evaluation == "Dynamic" <;>
        cases h3 : stringValue d.target.attr == "Properties" <;>
        cases h4 : stringValue d.target.requiresRecreation == "Never" <;>
        simp [h1, h2, h3, h4, bne]
    · simp [hasChangeLoopGo, nestedAutoOnly, h]

/-- C4: with IgnoreNestedUpdates = true, HasChange starts from false and
is true exactly when some change is not a single
{ChangeSource = Automatic, Evaluation = Dynamic, Target.Attribute =
Properties, Target.RequiresRecreation = Never} detail record; N copies
of such a record give HasChange = false for every N, and any list
containing one non-matching change gives HasChange = true. -/
theorem c4_nested_filter :
    (∀ cs stack p, newPlanGo cs stack true = some p →
      p.hasChange = cs.changes.any (fun c => !(nestedAutoOnly c))) ∧
    (∀ cs stack p n c, newPlanGo cs stack true = some p →
      cs.changes = List.replicate n c → nestedAutoOnly c = true →
      p.hasChange = false) ∧
    (∀ cs stack p c, newPlanGo cs stack true = some p →
      c ∈ cs.changes → nestedAutoOnly c = false →
      p.hasChange = true) := by
  have key : ∀ cs stack p, newPlanGo cs stack true = some p →
      p.hasChange = cs.changes.any (fun c => !(nestedAutoOnly c)) := by
    intro cs stack p hp
    unfold newPlanGo at hp
    match harn : arnParse cs.id with
    | none => rw [harn] at hp; exact absurd hp (by simp)
    | some a =>
      rw [harn] at hp
      simp only [Option.some.injEq] at hp
      rw [← hp]
      simpa using hasChangeLoopGo_eq_any cs.changes
  refine ⟨key, ?_, ?_⟩
  · intro cs stack p n c hp hrep hc
    rw [key cs stack p hp, hrep]
    by_cases hn : (List.replicate n c).any (fun x => !(nestedAutoOnly x)) = true
    · exfalso
      rcases List.any_eq_true.mp hn with ⟨x, hx, hxx⟩
      rw [List.eq_of_mem_replicate hx, hc] at hxx
      exact absurd hxx (by decide)
    · simpa using hn
  · intro cs stack p c hp hmem hc
    rw [key cs stack p hp]
    rw [List.any_eq_true]
    exact ⟨c, hmem, by simp [hc]⟩

/-- A concrete non-matching Modify change. -/
def modifyChange : RChange :=
  { logicalResourceId := some "Bucket"
    resourceType := some "AWS::S3::Bucket"
    action := some "Modify"
    details := [] }

/-- A change matching the nested-automatic template. -/
def nestedAutoChange : RChange :=
  { logicalResourceId := some "Nested"
    resourceType := some "AWS::CloudFormation::Stack"
    action := some "Modify"
    details := [{ changeSource := some "Automatic"
                  evaluation := some "Dynamic"
                  target := { attr := some "Properties"
                              requiresRecreation := some "Never" } }] }

/-- A change set holding three copies of the nested-automatic change. -/
def csNestedExample : ChangeSetData :=
  { csChangedExample with changes := List.replicate 3 nestedAutoChange }

/-- A change set with the three nested-automatic changes plus one
genuine Modify. -/
def csNestedPlusExample : ChangeSetData :=
  { csNestedExample with
    changes := csNestedExample.changes ++ [modifyChange] }

/-- Witness for C4: on a concrete change set of three nested-automatic
changes the plan reports no change, and after appending the non-matching
Modify change it reports a change. -/
theorem c4_nested_filter_witness :
    ∃ p q,
      newPlanGo csNestedExample stackChangedExample true = some p ∧
      p.hasChange = false ∧
      newPlanGo csNestedPlusExample stackChangedExample true = some q ∧
      q.hasChange = true := by
  refine ⟨_, _, rfl, ?_, rfl, ?_⟩
  · exact c4_nested_filter.2.1 csNestedExample stackChangedExample _ 3
      nestedAutoChange rfl (by decide) (by decide)
  · exact c4_nested_filter.2.2 csNestedPlusExample stackChangedExample _
      modifyChange rfl (by decide) (by decide)

/-! ## Runtime stack nodes (src/pkg/clon/stack.go, stack manager state) -/

/-- One runtime stack node: the mutable booleans, the cycle-detection
children set (keyed by config name, kept as an insertion-ordered list),
and the current remote snapshot returned by stackData(). -/
structure RNode where
  planned : Bool := false
  hasChange : Bool := false
  updated : Bool := false
  children : List String := []
  data : ClonStackData := {}
deriving DecidableEq

/-- The stack manager's stack map, keyed by config name. -/
abbrev ClonWorld : Type := List (String × RNode)

/-- Look a node up by config name (sm.stacks[name]). -/
def lookupN : ClonWorld → String → Option RNode
  | [], _ => none
  | (k, n) :: rest, name => if k = name then some n else lookupN rest name

/-- Replace the node stored under a name (no-op on absent names). -/
def setNode : ClonWorld → String → RNode → ClonWorld
  | [], _, _ => []
  | (k, n) :: rest, name, n' =>
    if k = name then (k, n') :: rest else (k, n) :: setNode rest name n'

theorem lookupN_setNode_self (w : ClonWorld) (name : String) (n' : RNode)
    (h : (lookupN w name).isSome) :
    lookupN (setNode w name n') name = some n' := by
  induction w with
  | nil => simp [lookupN] at h
  | cons kv rest ih =>
    by_cases hk : kv.1 = name
    · simp [lookupN, setNode, hk]
    · simp only [lookupN, setNode, hk, if_false] at h ⊢
      exact ih h

theorem lookupN_setNode_other (w : ClonWorld) (name other : String) (n' : RNode)
    (h : other ≠ name) :
    lookupN (setNode w name n') other = lookupN w other := by
  induction w with
  | nil => rfl
  | cons kv rest ih =>
    by_cases hk : kv.1 = name
    · simp [lookupN, setNode, hk, Ne.symm h]
    · by_cases hko : kv.1 = other <;> simp [lookupN, setNode, hk, hko, ih, h]

/-! ## StackManager.Execute (src/pkg/clon/plan.go, lines 472-492) -/

/-- The trackUpdates callback used by stack.execute: retry while the
stack is in progress, succeed on a non-rollback complete status, fail
otherwise. Returns (again, err). -/
def executeCallback (stack : CfnStackData) : Bool × Option String :=
  if stackIsInProgress stack then (true, none)
  else if stackIsComplete stack && !(stackIsRollback stack) then (false, none)
  else (false, some ("stack '" ++ stack.name ++ "' has invlid status '" ++
    stack.status ++ "'"))

/-- Drive the polling loop over the successive remote snapshots until
the callback stops it; the closer's Wait then yields the callback's
error (nil when the list is exhausted, i.e. the closer fired). -/
def runExecuteWait : List CfnStackData → Option String
  | [] => none
  | st :: rest =>
    match executeCallback st with
    | (true, _) => runExecuteWait rest
    | (false, e) => e

/-- StackManager.Execute: look the stack up, rebuild the change-set ARN,
run stack.execute (embedded as the polling outcome over the remote
snapshots), and — as written in the source — set the node's updated
flag when err != nil. Returns the updated world and the error. -/
def smExecute (w : ClonWorld) (region accountId name planId : String)
    (snapshots : List CfnStackData) : ClonWorld × Option String :=
  match lookupN w name with
  | none => (w, some ("cannot get stack '" ++ name ++ "'"))
  | some node =>
    let changeSetId := arnString
      { partition := "aws", service := "cloudformation", region := region
        accountId := accountId, resource := "changeSet/" ++ planId }
    let err := runExecuteWait snapshots
    let w' := if err.isSome then setNode w name { node with updated := true } else w
    (w', err.map (fun e =>
      "cannot execute change set '" ++ changeSetId ++ "' for stack '" ++
        name ++ "': " ++ e))

/-- C2 (divergence evaluation): the source flips the updated flag on the
wrong branch. For any node, a successful execution (terminal snapshot
complete and not rollback) leaves updated exactly as it was — never
setting it to true — while a failed execution (terminal rollback or
failed status) sets updated to true. -/
theorem c2_updated_flag_inverted :
    (∀ w region accountId name planId node snaps,
      lookupN w name = some node →
      runExecuteWait snaps = none →
      (smExecute w region accountId name planId snaps).1 = w ∧
      lookupN (smExecute w region accountId name planId snaps).1 name =
        some node) ∧
    (∀ w region accountId name planId node snaps e,
      lookupN w name = some node →
      runExecuteWait snaps = some e →
      lookupN (smExecute w region accountId name planId snaps).1 name =
        some { node with updated := true }) := by
  constructor
  · intro w region accountId name planId node snaps hl hrun
    unfold smExecute
    rw [hl, hrun]
    exact ⟨rfl, hl⟩
  · intro w region accountId name planId node snaps e hl hrun
    unfold smExecute
    rw [hl, hrun]
    simp only [Option.isSome_some, if_true]
    exact lookupN_setNode_self w name _ (by rw [hl]; rfl)

/-- A one-stack world for the Execute examples. -/
def execExampleWorld : ClonWorld := [("A", { data := { configName := "A" } })]

/-- A successful terminal snapshot sequence. -/
def snapOkExample : List CfnStackData :=
  [{ name := "demo-A", status := "UPDATE_COMPLETE" }]

/-- A failed (rolled back) terminal snapshot sequence. -/
def snapRollbackExample : List CfnStackData :=
  [{ name := "demo-A", status := "UPDATE_ROLLBACK_COMPLETE" }]

/-- Witness for C2: a concrete successful execution (UPDATE_COMPLETE)
leaves updated = false, and a concrete failed one
(UPDATE_ROLLBACK_COMPLETE) sets updated = true. -/
theorem c2_updated_flag_inverted_witness :
    (lookupN
      (smExecute execExampleWorld "eu-central-1" "123456789012" "A" "cs1"
        snapOkExample).1 "A" = some { data := { configName := "A" } }) ∧
    (lookupN
      (smExecute execExampleWorld "eu-central-1" "123456789012" "A" "cs1"
        snapRollbackExample).1 "A" =
      some { updated := true, data := { configName := "A" } }) := by
  constructor
  · exact (c2_updated_flag_inverted.1 execExampleWorld "eu-central-1"
      "123456789012" "A" "cs1" { data := { configName := "A" } } snapOkExample
      (by decide) (by decide)).2
  · exact c2_updated_flag_inverted.2 execExampleWorld "eu-central-1"
      "123456789012" "A" "cs1" { data := { configName := "A" } }
      snapRollbackExample
      "stack 'demo-A' has invlid status 'UPDATE_ROLLBACK_COMPLETE'"
      (by decide) (by decide)

/-! ## Stack events (src/unnamed/part_006, cfn.StackEvents)

getEvents paginates DescribeStackEvents to completion and reverses the
result, so one poll is modelled as the full chronological event list;
the remote history is append-only, so successive polls are modelled as
extensions of the previous list. The callback is taken to keep asking
for more (again = true), which is how the manager installs it. -/

/-- One stack event (the fields besides EventID are opaque here). -/
structure SEvent where
  eventId : String
  body : String := ""
deriving DecidableEq

/-- The mark left after walking a list of events on top of a previous
mark: the EventID of the last event, or the previous mark when the list
is empty. -/
def seMark : List SEvent → String → String
  | [], last => last
  | e :: es, _ => seMark es e.eventId

/-- The high-water mark set by NewStackEvents: the EventID of the last
(most recent) event of the initial catalog, "" when there is none. -/
def seInit (events : List SEvent) : String := seMark events ""

/-- The inner delivery loop of StackEvents.update: skip until the
remembered EventID is seen, then deliver every later event in order,
advancing the mark to each delivered EventID. Returns the delivered
events and the new mark. -/
def seDeliver : Bool → String → List SEvent → List SEvent × String
  | _, last, [] => ([], last)
  | true, _, e :: es =>
    let r := seDeliver true e.eventId es
    (e :: r.1, r.2)
  | false, last, e :: es =>
    if last == e.eventId then seDeliver true last es
    else seDeliver false last es

/-- One poll iteration of StackEvents.update: found starts as
(se.last == ""). -/
def seUpdateOnce (last : String) (events : List SEvent) :
    List SEvent × String :=
  seDeliver (last == "") last events

/-- Successive poll iterations, threading the mark. Returns the events
delivered by each poll. -/
def seRun (last : String) : List (List SEvent) → List (List SEvent) × String
  | [] => ([], last)
  | poll :: polls =>
    let r := seUpdateOnce last poll
    let r2 := seRun r.2 polls
    (r.1 :: r2.1, r2.2)

/-- The event lists an append-only remote API returns across polls:
poll i sees the base catalog followed by the first i increments. -/
def seePolls (base : List SEvent) : List (List SEvent) → List (List SEvent)
  | [] => []
  | m :: ms => (base ++ m) :: seePolls (base ++ m) ms

theorem seMark_append (a b : List SEvent) (last : String) :
    seMark (a ++ b) last = seMark b (seMark a last) := by
  induction a generalizing last with
  | nil => rfl
  | cons e es ih => rw [List.cons_append, seMark, seMark, ih]

theorem seInit_concat (b : List SEvent) (e : SEvent) :
    seInit (b ++ [e]) = e.eventId := by
  rw [seInit, seMark_append]
  rfl

/-- Once in delivery mode, everything left is delivered in order and the
mark advances to the last delivered event. -/
theorem seDeliver_found (last : String) (es : List SEvent) :
    seDeliver true last es = (es, seMark es last) := by
  induction es generalizing last with
  | nil => rfl
  | cons e rest ih => rw [seDeliver, ih, seMark]

/-- The skip phase walks past exactly the old catalog: nothing before
the remembered event matches it (distinct EventIDs), the remembered
event flips found, and everything after it is delivered. -/
theorem seDeliver_skip (e : SEvent) (L M : List SEvent)
    (hdis : ∀ x ∈ L, x.eventId ≠ e.eventId) :
    seDeliver false e.eventId (L ++ e :: M) = (M, seMark M e.eventId) := by
  induction L with
  | nil =>
    rw [List.nil_append, seDeliver]
    simp only [beq_self_eq_true, if_true]
    exact seDeliver_found e.eventId M
  | cons x L ih =>
    rw [List.cons_append, seDeliver]
    have hx : (e.eventId == x.eventId) = false :=
      beq_eq_false_iff_ne.mpr (Ne.symm (hdis x (by simp)))
    rw [hx]
    simp only [Bool.false_eq_true, if_false]
    exact ih (fun y hy => hdis y (by simp [hy]))

/-- EventIDs of a list of events. -/
def seIds (l : List SEvent) : List String := l.map SEvent.eventId

/-- Heart of C9, one poll: with the mark sitting on the last event of
the old catalog, a poll returning old ++ new delivers exactly new and
moves the mark to the end. -/
theorem seUpdateOnce_append (base M : List SEvent)
    (hnd : (seIds (base ++ M)).Nodup)
    (hne : "" ∉ seIds base) :
    seUpdateOnce (seInit base) (base ++ M) = (M, seInit (base ++ M)) := by
  rcases base.eq_nil_or_concat with hb | ⟨B, e, hb⟩
  · subst hb
    unfold seUpdateOnce
    simp only [seInit, seMark, List.nil_append, beq_self_eq_true]
    exact seDeliver_found "" M
  · rw [List.concat_eq_append] at hb
    subst hb
    have hinit : seInit (B ++ [e]) = e.eventId := seInit_concat B e
    have heid : e.eventId ≠ "" := by
      intro hh
      exact hne (by simp [seIds]; exact Or.inr hh.symm)
    unfold seUpdateOnce
    rw [hinit]
    have hfb : (e.eventId == "") = false := beq_eq_false_iff_ne.mpr heid
    rw [hfb]
    have hnd' : (seIds B ++ e.eventId :: seIds M).Nodup := by
      simpa [seIds] using hnd
    have hdis : ∀ x ∈ B, x.eventId ≠ e.eventId := by
      intro x hx hxe
      rcases List.nodup_append.mp hnd' with ⟨-, -, hdj⟩
      exact hdj (List.mem_map_of_mem SEvent.eventId hx) (by simp [hxe])
    calc seDeliver false e.eventId (B ++ [e] ++ M)
        = seDeliver false e.eventId (B ++ e :: M) := by
          rw [List.append_assoc, List.singleton_append]
      _ = (M, seMark M e.eventId) := seDeliver_skip e B M hdis
      _ = (M, seInit (B ++ [e] ++ M)) := by
          rw [seInit, seMark_append, seMark_append]
          rfl

/-- Multi-poll core: over an append-only remote, each poll delivers
exactly its increment and the mark tracks the newest event. -/
theorem seRun_polls (ms : List (List SEvent)) (base : List SEvent)
    (hnd : (seIds (base ++ ms.flatten)).Nodup)
    (hne : "" ∉ seIds (base ++ ms.flatten)) :
    seRun (seInit base) (seePolls base ms) =
      (ms, seMark ms.flatten (seInit base)) := by
  induction ms generalizing base with
  | nil => simp [seRun, seePolls, seMark]
  | cons m ms ih =>
    rw [seePolls, seRun]
    have hnd1 : (seIds ((base ++ m) ++ ms.flatten)).Nodup := by
      simpa [List.append_assoc] using hnd
    have hndm : (seIds (base ++ m)).Nodup := by
      have := hnd1
      rw [seIds, List.map_append, List.nodup_append] at this
      exact this.1
    have hne2 : "" ∉ seIds ((base ++ m) ++ ms.flatten) := by
      simpa [seIds, List.append_assoc] using hne
    have hnebm : "" ∉ seIds (base ++ m) := by
      intro hh
      exact hne2 (by rw [seIds, List.map_append]; exact List.mem_append_left _ hh)
    have hone := seUpdateOnce_append base m hndm (by
      intro hh
      exact hnebm (by rw [seIds, List.map_append]; exact List.mem_append_left _ hh))
    rw [hone]
    have := ih (base ++ m) hnd1 hne2
    rw [this]
    simp only [List.flatten_cons]
    rw [seInit, seMark_append, ← seInit, seMark_append]

/-- C9: for an append-only remote event history with distinct, nonempty
EventIDs, the stream delivers per poll exactly the events appended after
construction — the initial catalog is never delivered — in chronological
order, the high-water mark advances to each delivered event, and no
event is ever delivered twice. -/
theorem c9_event_stream_monotone (base : List SEvent)
    (ms : List (List SEvent))
    (hnd : (seIds (base ++ ms.flatten)).Nodup)
    (hne : "" ∉ seIds (base ++ ms.flatten)) :
    (seRun (seInit base) (seePolls base ms)).1 = ms ∧
    (seRun (seInit base) (seePolls base ms)).2 =
      seMark ms.flatten (seInit base) ∧
    (seIds (seRun (seInit base) (seePolls base ms)).1.flatten).Nodup ∧
    (∀ e ∈ base, e ∉ (seRun (seInit base) (seePolls base ms)).1.flatten) := by
  have hmain := seRun_polls ms base hnd hne
  rw [hmain]
  have hsplit : (seIds base).Nodup ∧ (seIds ms.flatten).Nodup ∧
      (seIds base).Disjoint (seIds ms.flatten) := by
    have := hnd
    rw [seIds, List.map_append, List.nodup_append] at this
    exact this
  refine ⟨rfl, rfl, hsplit.2.1, ?_⟩
  intro e hbase hflat
  exact hsplit.2.2 (List.mem_map_of_mem SEvent.eventId hbase)
    (List.mem_map_of_mem SEvent.eventId hflat)

/-- Witness for C9: initial catalog [a]; the remote then grows by [b]
and later by [c]; the two polls deliver [b] and [c], the mark ends on c,
nothing is delivered twice, and a is never re-delivered. -/
theorem c9_event_stream_monotone_witness :
    (seRun (seInit [⟨"ev-a", "x"⟩])
        (seePolls [⟨"ev-a", "x"⟩] [[⟨"ev-b", "y"⟩], [⟨"ev-c", "z"⟩]])).1 =
      [[⟨"ev-b", "y"⟩], [⟨"ev-c", "z"⟩]] ∧
    (seRun (seInit [⟨"ev-a", "x"⟩])
        (seePolls [⟨"ev-a", "x"⟩] [[⟨"ev-b", "y"⟩], [⟨"ev-c", "z"⟩]])).2 =
      "ev-c" ∧
    (∀ e ∈ [(⟨"ev-a", "x"⟩ : SEvent)],
      e ∉ (seRun (seInit [⟨"ev-a", "x"⟩])
        (seePolls [⟨"ev-a", "x"⟩] [[⟨"ev-b", "y"⟩], [⟨"ev-c", "z"⟩]])).1.flatten) := by
  have h := c9_event_stream_monotone [⟨"ev-a", "x"⟩]
    [[⟨"ev-b", "y"⟩], [⟨"ev-c", "z"⟩]] (by decide) (by decide)
  exact ⟨h.1, h.2.1, h.2.2.2⟩

/-! ## Closer (src/internal/pkg/s3file/s3file_test.go companion package,
pkg/closer with child propagation)

Closers are identified by numbers standing for the Go pointers. The
state records the sync.Once guard (`fired`, set when Do returns), the
closed flag, the captured error and the children set. `Close` is
modelled sequentially: a re-entrant Close on a closer whose once.Do is
still running deadlocks in Go (Once.Do documents this); the model keeps
the call stack in `active` and returns none for that deadlock, and it
returns none on fuel exhaustion (unbounded propagation). -/

/-- Identifier of one closer (stands for the Go pointer). -/
abbrev CloserId : Type := Nat

/-- State of one closer. -/
structure CloserSt where
  fired : Bool := false
  closed : Bool := false
  err : Option String := none
  children : List CloserId := []
deriving DecidableEq

instance : Inhabited CloserSt := ⟨{}⟩

/-- The heap of closers. -/
abbrev CloserWorld : Type := List (CloserId × CloserSt)

/-- Dereference a closer id. -/
def getC : CloserWorld → CloserId → CloserSt
  | [], _ => default
  | (k, s) :: rest, c => if k = c then s else getC rest c

/-- Store a closer state (appends when the id is new). -/
def setC : CloserWorld → CloserId → CloserSt → CloserWorld
  | [], c, st => [(c, st)]
  | (k, s) :: rest, c, st =>
    if k = c then (c, st) :: rest else (k, s) :: setC rest c st

/-- propagate's loop over the children map, threading the world through
each child's Close. -/
def closeKids (rec : CloserWorld → CloserId → Option String → Option CloserWorld) :
    CloserWorld → List CloserId → Option String → Option CloserWorld
  | w, [], _ => some w
  | w, ch :: rest, e =>
    match rec w ch e with
    | none => none
    | some w' => closeKids rec w' rest e

/-- Closer.Close: the once.Do fast path returns when the Do already
fired; a Close already on the call stack is the Go deadlock (none);
otherwise record err, close the channel, propagate c.err to every
child, and mark the Once fired when Do returns. -/
def closeGo (fuel : Nat) (active : List CloserId) (w : CloserWorld)
    (c : CloserId) (e : Option String) : Option CloserWorld :=
  let st := getC w c
  if st.fired then some w
  else if c ∈ active then none
  else
    match fuel with
    | 0 => none
    | fuel' + 1 =>
      let w1 := setC w c { st with closed := true, err := e }
      match closeKids (fun w2 ch e2 => closeGo fuel' (c :: active) w2 ch e2)
          w1 (getC w1 c).children (getC w1 c).err with
      | none => none
      | some w2 => some (setC w2 c { getC w2 c with fired := true })

/-- Closer.AddChild: an already-closed parent closes the child at once
with the parent's error; re-adding a known child is a no-op; otherwise
the child is inserted into the children set — the source does not treat
child = c specially. -/
def closerAddChild (fuel : Nat) (w : CloserWorld) (c child : CloserId) :
    Option CloserWorld :=
  let st := getC w c
  if st.closed then closeGo fuel [] w child st.err
  else if child ∈ st.children then some w
  else some (setC w c { st with children := st.children ++ [child] })

/-- Closer.Wait: blocks until closed (none models the block), then
returns the captured error. -/
def closerWait (w : CloserWorld) (c : CloserId) : Option (Option String) :=
  if (getC w c).closed then some (getC w c).err else none

/-- Preorder flattening of the closer tree under a root, provided the
children relation is height-bounded by the fuel (none otherwise). -/
def descOK (fuel : Nat) (w : CloserWorld) (a : CloserId) :
    Option (List CloserId) :=
  match fuel with
  | 0 => none
  | fuel' + 1 =>
    match goKids (descOK fuel' w) (getC w a).children with
    | none => none
    | some l => some (a :: l)
where
  /-- Flatten the subtrees of a list of children. -/
  goKids (rec : CloserId → Option (List CloserId)) :
      List CloserId → Option (List CloserId)
    | [] => some []
    | c :: rest =>
      match rec c, goKids rec rest with
      | some l, some l2 => some (l ++ l2)
      | _, _ => none

theorem getC_setC_self (w : CloserWorld) (c : CloserId) (st : CloserSt) :
    getC (setC w c st) c = st := by
  induction w with
  | nil => simp [getC, setC]
  | cons kv rest ih =>
    by_cases hk : kv.1 = c <;> simp [getC, setC, hk, ih]

theorem getC_setC_other (w : CloserWorld) (c d : CloserId) (st : CloserSt)
    (h : d ≠ c) : getC (setC w c st) d = getC w d := by
  induction w with
  | nil => simp [getC, setC, Ne.symm h]
  | cons kv rest ih =>
    by_cases hk : kv.1 = c
    · simp [getC, setC, hk, Ne.symm h]
    · by_cases hd : kv.1 = d <;> simp [getC, setC, hk, hd, ih, h]

theorem goKids_congr (r1 r2 : CloserId → Option (List CloserId))
    (h : ∀ c, r1 c = r2 c) (cs : List CloserId) :
    descOK.goKids r1 cs = descOK.goKids r2 cs := by
  induction cs with
  | nil => rfl
  | cons c rest ih => rw [descOK.goKids, descOK.goKids, h c, ih]

theorem descOK_congr (fuel : Nat) (w w' : CloserWorld)
    (h : ∀ n, (getC w' n).children = (getC w n).children) (a : CloserId) :
    descOK fuel w' a = descOK fuel w a := by
  induction fuel generalizing a with
  | zero => rfl
  | succ fuel ih =>
    rw [descOK, descOK, h a, goKids_congr (descOK fuel w') (descOK fuel w) ih]

/-- Unfolding of Close on a not-yet-fired closer that is not on the call
stack. -/
theorem closeGo_not_fired (fuel : Nat) (active : List CloserId)
    (w : CloserWorld) (c : CloserId) (e : Option String)
    (hf : (getC w c).fired = false) (ha : c ∉ active) :
    closeGo (fuel + 1) active w c e =
      match closeKids (fun w2 ch e2 => closeGo fuel (c :: active) w2 ch e2)
          (setC w c { getC w c with closed := true, err := e })
          (getC w c).children e with
      | none => none
      | some w2 => some (setC w2 c { getC w2 c with fired := true }) := by
  rw [closeGo]
  simp [hf, ha, getC_setC_self]

/-- Joint induction for Close: closing an undone tree root succeeds,
closes the whole preorder list with the given error, fires every Once in
it, touches nothing outside it, and never changes any children set. The
second conjunct is the same statement for propagate's loop. -/
theorem closeGo_tree_main : ∀ fuel : Nat,
    (∀ w a e active l, descOK fuel w a = some l → l.Nodup →
      (∀ n ∈ l, (getC w n).fired = false) → (∀ x ∈ active, x ∉ l) →
      ∃ w', closeGo fuel active w a e = some w' ∧
        (∀ n ∈ l, (getC w' n).closed = true ∧ (getC w' n).err = e ∧
          (getC w' n).fired = true) ∧
        (∀ n, n ∉ l → getC w' n = getC w n) ∧
        (∀ n, (getC w' n).children = (getC w n).children)) ∧
    (∀ w cs e active L, descOK.goKids (descOK fuel w) cs = some L → L.Nodup →
      (∀ n ∈ L, (getC w n).fired = false) → (∀ x ∈ active, x ∉ L) →
      ∃ w', closeKids (fun w2 ch e2 => closeGo fuel active w2 ch e2) w cs e =
          some w' ∧
        (∀ n ∈ L, (getC w' n).closed = true ∧ (getC w' n).err = e ∧
          (getC w' n).fired = true) ∧
        (∀ n, n ∉ L → getC w' n = getC w n) ∧
        (∀ n, (getC w' n).children = (getC w n).children)) := by
  intro fuel
  induction fuel with
  | zero =>
    constructor
    · intro w a e active l h
      exact absurd h (by simp [descOK])
    · intro w cs e active L h hnd hun hact
      cases cs with
      | nil =>
        refine ⟨w, rfl, ?_, fun n _ => rfl, fun n => rfl⟩
        intro n hn
        rw [show L = [] by simpa [descOK.goKids] using h.symm] at hn
        exact absurd hn (by simp)
      | cons c rest => exact absurd h (by simp [descOK.goKids, descOK])
  | succ fuel ih =>
    obtain ⟨Pih, Qih⟩ := ih
    have Psucc : ∀ w a e active l, descOK (fuel + 1) w a = some l → l.Nodup →
        (∀ n ∈ l, (getC w n).fired = false) → (∀ x ∈ active, x ∉ l) →
        ∃ w', closeGo (fuel + 1) active w a e = some w' ∧
          (∀ n ∈ l, (getC w' n).closed = true ∧ (getC w' n).err = e ∧
            (getC w' n).fired = true) ∧
          (∀ n, n ∉ l → getC w' n = getC w n) ∧
          (∀ n, (getC w' n).children = (getC w n).children) := by
      intro w a e active l hdesc hnd hun hact
      obtain ⟨l2, hkids, hl⟩ :
          ∃ l2, descOK.goKids (descOK fuel w) (getC w a).children = some l2 ∧
            l = a :: l2 := by
        rw [descOK] at hdesc
        match hk : descOK.goKids (descOK fuel w) (getC w a).children with
        | none => rw [hk] at hdesc; exact absurd hdesc (by simp)
        | some l2 =>
          rw [hk] at hdesc
          simp only [Option.some.injEq] at hdesc
          exact ⟨l2, rfl, hdesc.symm⟩
      subst hl
      have hamem : a ∈ a :: l2 := by simp
      have hfa : (getC w a).fired = false := hun a hamem
      have haact : a ∉ active := fun hx => hact a hx hamem
      -- the world after the closed/err assignment, before propagation
      set st := getC w a with hst
      set w1 := setC w a { st with closed := true, err := e } with hw1
      have hga : getC w1 a = { st with closed := true, err := e } :=
        getC_setC_self w a _
      have hw1other : ∀ n, n ≠ a → getC w1 n = getC w n := by
        intro n hn
        exact getC_setC_other w a n _ hn
      have hw1chd : ∀ n, (getC w1 n).children = (getC w n).children := by
        intro n
        by_cases hn : n = a
        · subst hn; rw [hga]
        · rw [hw1other n hn]
      have hanotl2 : a ∉ l2 := by
        have := hnd
        rw [List.nodup_cons] at this
        exact this.1
      have hkids1 : descOK.goKids (descOK fuel w1) (getC w1 a).children =
          some l2 := by
        rw [goKids_congr (descOK fuel w1) (descOK fuel w)
          (descOK_congr fuel w w1 hw1chd), hga]
        exact hkids
      obtain ⟨w2, hclose2, heff2, hfr2, hchd2⟩ :=
        Qih w1 (getC w1 a).children e (a :: active) l2 hkids1
          (List.Nodup.of_cons hnd)
          (by
            intro n hn
            rw [hw1other n (fun hx => hanotl2 (hx ▸ hn))]
            exact hun n (by simp [hn]))
          (by
            intro x hx
            rcases List.mem_cons.mp hx with hxa | hxact
            · exact hxa ▸ hanotl2
            · intro hn
              exact hact x hxact (by simp [hn]))
      have hga2 : getC w2 a = { st with closed := true, err := e } := by
        rw [hfr2 a hanotl2, hga]
      refine ⟨setC w2 a { getC w2 a with fired := true }, ?_, ?_, ?_, ?_⟩
      · rw [closeGo_not_fired fuel active w a e hfa haact]
        have hch : closeKids (fun w2 ch e2 => closeGo fuel (a :: active) w2 ch e2)
            (setC w a { getC w a with closed := true, err := e })
            (getC w a).children e = some w2 := by
          rw [← hst, ← hw1]
          have hcc : (getC w1 a).children = st.children := by rw [hga]
          rw [← hcc]
          exact hclose2
        rw [hch]
      · intro n hn
        rcases List.mem_cons.mp hn with hna | hnl2
        · subst hna
          rw [getC_setC_self, hga2]
          exact ⟨rfl, rfl, rfl⟩
        · have hne : n ≠ a := fun hx => hanotl2 (hx ▸ hnl2)
          rw [getC_setC_other w2 a n _ hne]
          exact heff2 n hnl2
      · intro n hn
        have hna : n ≠ a := fun hx => hn (by simp [hx])
        have hnl2 : n ∉ l2 := fun hx => hn (by simp [hx])
        rw [getC_setC_other w2 a n _ hna, hfr2 n hnl2, hw1other n hna]
      · intro n
        by_cases hna : n = a
        · subst hna
          rw [getC_setC_self]
          simp only []
          rw [hga2]
        · rw [getC_setC_other w2 a n _ hna, hchd2 n, hw1chd n]
    refine ⟨Psucc, ?_⟩
    intro w cs e active L hkids hnd hun hact
    induction cs generalizing w L with
    | nil =>
      refine ⟨w, rfl, ?_, fun n _ => rfl, fun n => rfl⟩
      intro n hn
      rw [show L = [] by simpa [descOK.goKids] using hkids.symm] at hn
      exact absurd hn (by simp)
    | cons c rest ihc =>
      obtain ⟨lc, lrest, hlc, hlrest, hL⟩ :
          ∃ lc lrest, descOK (fuel + 1) w c = some lc ∧
            descOK.goKids (descOK (fuel + 1) w) rest = some lrest ∧
            L = lc ++ lrest := by
        rw [descOK.goKids] at hkids
        match h1 : descOK (fuel + 1) w c,
            h2 : descOK.goKids (descOK (fuel + 1) w) rest with
        | some lc, some lrest =>
          rw [h1, h2] at hkids
          simp only [Option.some.injEq] at hkids
          exact ⟨lc, lrest, rfl, rfl, hkids.symm⟩
        | some lc, none => rw [h1, h2] at hkids; exact absurd hkids (by simp)
        | none, _ => rw [h1] at hkids; exact absurd hkids (by simp)
      subst hL
      have hdisj : ∀ x ∈ lc, x ∉ lrest := by
        intro x hx hx2
        rcases List.nodup_append.mp hnd with ⟨-, -, hdj⟩
        exact hdj hx hx2
      obtain ⟨w', hcw', heffc, hfrc, hchdc⟩ :=
        Psucc w c e active lc hlc (List.Nodup.of_append_left hnd)
          (fun n hn => hun n (List.mem_append_left _ hn))
          (fun x hx hn => hact x hx (List.mem_append_left _ hn))
      obtain ⟨w'', hcw'', heffr, hfrr, hchdr⟩ :=
        ihc w' lrest
          (by
            rw [goKids_congr (descOK (fuel + 1) w') (descOK (fuel + 1) w)
              (descOK_congr (fuel + 1) w w' hchdc)]
            exact hlrest)
          (List.Nodup.of_append_right hnd)
          (by
            intro n hn
            rw [hfrc n (fun hx => hdisj n hx hn)]
            exact hun n (List.mem_append_right _ hn))
          (fun x hx hn => hact x hx (List.mem_append_right _ hn))
      refine ⟨w'', ?_, ?_, ?_, ?_⟩
      · rw [closeKids, hcw']
        exact hcw''
      · intro n hn
        rcases List.mem_append.mp hn with hnc | hnr
        · rw [hfrr n (fun hx => hdisj n hnc hx)]
          exact heffc n hnc
        · exact heffr n hnr
      · intro n hn
        rw [hfrr n (fun hx => hn (List.mem_append_right _ hx)),
          hfrc n (fun hx => hn (List.mem_append_left _ hx))]
      · intro n
        rw [hchdr n, hchdc n]

/-- C6: in any tree of closers (preorder listed by descOK, distinct ids,
none fired yet), closing a node closes every node of its subtree — in
particular every descendant n of the closed ancestor — with the
ancestor's error, so Wait on each returns that error; a child added to
an already-closed parent is closed immediately with the parent's
captured error; and Close on an already-fired closer is a no-op, leaving
the world (hence the first captured error) untouched. -/
theorem c6_closer_tree_propagation :
    (∀ fuel w a e l, descOK fuel w a = some l → l.Nodup →
      (∀ n ∈ l, (getC w n).fired = false) →
      ∃ w', closeGo fuel [] w a e = some w' ∧
        ∀ n ∈ l, (getC w' n).closed = true ∧ closerWait w' n = some e) ∧
    (∀ fuel w p m l, (getC w p).closed = true → descOK fuel w m = some l →
      l.Nodup → (∀ n ∈ l, (getC w n).fired = false) →
      ∃ w', closerAddChild fuel w p m = some w' ∧
        (getC w' m).closed = true ∧ closerWait w' m = some (getC w p).err) ∧
    (∀ fuel active w a e2, (getC w a).fired = true →
      closeGo fuel active w a e2 = some w) := by
  refine ⟨?_, ?_, ?_⟩
  · intro fuel w a e l hdesc hnd hun
    obtain ⟨w', hw', heff, -, -⟩ :=
      (closeGo_tree_main fuel).1 w a e [] l hdesc hnd hun (by simp)
    refine ⟨w', hw', ?_⟩
    intro n hn
    obtain ⟨h1, h2, -⟩ := heff n hn
    exact ⟨h1, by rw [closerWait, h1, if_pos rfl, h2]⟩
  · intro fuel w p m l hp hdesc hnd hun
    obtain ⟨w', hw', heff, -, -⟩ :=
      (closeGo_tree_main fuel).1 w m (getC w p).err [] l hdesc hnd hun (by simp)
    have hm : m ∈ l := by
      cases fuel with
      | zero => exact absurd hdesc (by simp [descOK])
      | succ fuel =>
        rw [descOK] at hdesc
        match hk : descOK.goKids (descOK fuel w) (getC w m).children with
        | none => rw [hk] at hdesc; exact absurd hdesc (by simp)
        | some l2 =>
          rw [hk] at hdesc
          simp only [Option.some.injEq] at hdesc
          rw [← hdesc]
          simp
    obtain ⟨h1, h2, -⟩ := heff m hm
    refine ⟨w', ?_, h1, by rw [closerWait, h1, if_pos rfl, h2]⟩
    rw [closerAddChild]
    simp only [hp, if_pos rfl]
    exact hw'
  · intro fuel active w a e2 hf
    rw [closeGo.eq_def]
    simp [hf]

/-- A three-closer chain: 0 is the root, 1 its child, 2 a grandchild. -/
def closerChainExample : CloserWorld :=
  [(0, { children := [1] }), (1, { children := [2] }), (2, {})]

/-- A world whose closer 0 is already closed with an error and whose
closer 3 is fresh. -/
def closerClosedExample : CloserWorld :=
  [(0, { fired := true, closed := true, err := some "boom" }), (3, {})]

/-- Witness for C6: closing the root of the concrete chain closes the
whole subtree (0, 1 and its grandchild 2) with the supplied error;
adding closer 3 to an already-closed parent closes it immediately with
the parent's error; a second Close on a fired closer is a no-op. -/
theorem c6_closer_tree_propagation_witness :
    (∃ w', closeGo 3 [] closerChainExample 0 (some "boom") = some w' ∧
      ∀ n ∈ [0, 1, 2], (getC w' n).closed = true ∧
        closerWait w' n = some (some "boom")) ∧
    (∃ w2, closerAddChild 1 closerClosedExample 0 3 = some w2 ∧
      (getC w2 3).closed = true ∧
      closerWait w2 3 = some (getC closerClosedExample 0).err) ∧
    closeGo 5 [] closerClosedExample 0 (some "other") = some closerClosedExample := by
  refine ⟨?_, ?_, ?_⟩
  · exact c6_closer_tree_propagation.1 3 closerChainExample 0 (some "boom")
      [0, 1, 2] (by decide) (by decide) (by decide)
  · exact c6_closer_tree_propagation.2.1 1 closerClosedExample 0 3 [3]
      (by decide) (by decide) (by decide) (by decide)
  · exact c6_closer_tree_propagation.2.2 5 [] closerClosedExample 0
      (some "other") (by decide)

/-- A single fresh closer. -/
def closerSoloExample : CloserWorld := [(0, {})]

/-- The world after AddChild(c, c): c is registered as its own child. -/
def closerSelfExample : CloserWorld := [(0, { children := [0] })]

/-- C7 (divergence evaluation): AddChild(c, c) is not a no-op — the
closer is inserted into its own children set — and Close on the
resulting self-cycle never completes: propagate re-enters the same
closer's once.Do before it has fired, which deadlocks in Go; the model
returns none (deadlock) for every fuel. The package's own test
TestCloserChild_childSameAsParent expects this Close to terminate. -/
theorem c7_self_child_not_noop :
    closerAddChild 1 closerSoloExample 0 0 = some closerSelfExample ∧
    (getC closerSelfExample 0).children = [0] ∧
    (getC closerSoloExample 0).children = [] ∧
    (∀ fuel, closeGo fuel [] closerSelfExample 0 none = none) := by
  refine ⟨by decide, by decide, by decide, ?_⟩
  intro fuel
  cases fuel with
  | zero => rfl
  | succ fuel =>
    rw [closeGo_not_fired fuel [] closerSelfExample 0 none (by decide) (by decide)]
    have hinner : closeGo fuel [0]
        (setC closerSelfExample 0
          { getC closerSelfExample 0 with closed := true, err := none }) 0 none =
        none := by
      rw [closeGo.eq_def]
      simp [closerSelfExample, getC, setC]
    rw [show (getC closerSelfExample 0).children = [0] from rfl]
    simp only [closeKids, hinner]

/-! ## Cross-stack references and cycle detection
(src/pkg/clon/stack.go addChild/isChild, plan.go tplGetStackData) -/

/-- The children set of a node (empty for unknown stacks). -/
def childrenOf (w : ClonWorld) (s : String) : List String :=
  match lookupN w s with
  | some n => n.children
  | none => []

/-- The loop body of stack.isChild over the children entries: an entry
matching the searched name yields the two-element chain, otherwise the
search recurses into the child and, on a hit, appends the current
node. -/
def isChildScan (rec : String → Option (List String)) (s name : String) :
    List String → Option (List String)
  | [] => none
  | n :: rest =>
    if n = name then some [n, s]
    else
      match rec n with
      | some r => some (r ++ [s])
      | none => isChildScan rec s name rest

/-- stack.isChild: depth-first search for `name` below `s` along the
children maps, returning the discovered chain. The fuel bounds the
recursion depth (the Go recursion is unbounded; on the acyclic graphs
the program maintains, w.length + 1 fuel is always enough). -/
def isChildGo : Nat → ClonWorld → String → String → Option (List String)
  | 0, _, _, _ => none
  | fuel + 1, w, s, name =>
    isChildScan (fun n => isChildGo fuel w n name) s name (childrenOf w s)

/-- Insert child into s's children map (s.children[child] = child). -/
def addEdge (w : ClonWorld) (s child : String) : ClonWorld :=
  match lookupN w s with
  | some n => setNode w s { n with children := n.children ++ [child] }
  | none => w

/-- stack.addChild: a known child is a no-op; otherwise search for a
path from the child back to s and reject the edge with the cycle chain
when one exists; otherwise record the edge. -/
def addChildGo (fuel : Nat) (w : ClonWorld) (s child : String) :
    Except (List String) ClonWorld :=
  if child ∈ childrenOf w s then .ok w
  else
    match isChildGo fuel w child s with
    | some chain => .error (chain ++ [s])
    | none => .ok (addEdge w s child)

/-- The cyclic-dependency error message. -/
def cyclicMsg (chain : List String) : String :=
  "cyclic dependency between stacks: " ++ strJoin " -> " chain

/-- Errors the stack template helper can raise. -/
inductive TplErr where
  | selfReference (child : String)
  | unknownStack (name : String)
  | cyclic (chain : List String)
  | notDeployed (name : String)
deriving DecidableEq

/-- StackManager.tplGetStackData, the `stack` template helper: reject
self references, find the node, record the reference edge (rejecting
cycles), then the freshness gate — an updated node, or a planned one
without changes, is returned directly; otherwise the verify hook runs
(the returned Bool reports whether it was invoked). verifyOk abstracts
the hook's outcome. -/
def tplGetStackData (fuel : Nat) (verifyOk : String → Bool) (w : ClonWorld)
    (child name : String) : Except TplErr ClonStackData × ClonWorld × Bool :=
  if child = name then (.error (.selfReference child), w, false)
  else
    match lookupN w name with
    | none => (.error (.unknownStack name), w, false)
    | some s =>
      match addChildGo fuel w name child with
      | .error chain => (.error (.cyclic chain), w, false)
      | .ok w' =>
        if s.updated || (s.planned && !s.hasChange) then (.ok s.data, w', false)
        else if verifyOk name then (.ok s.data, w', true)
        else (.error (.notDeployed name), w', true)

/-- The flag updates at the end of StackManager.Plan:
stack.planned = true; stack.hasChange = plan.HasChange. -/
def planMark (w : ClonWorld) (name : String) (hasChange : Bool) : ClonWorld :=
  match lookupN w name with
  | some n => setNode w name { n with planned := true, hasChange := hasChange }
  | none => w

theorem lookupN_planMark_self (w : ClonWorld) (name : String) (h : Bool)
    (s : RNode) (hl : lookupN w name = some s) :
    lookupN (planMark w name h) name =
      some { s with planned := true, hasChange := h } := by
  rw [planMark, hl]
  exact lookupN_setNode_self w name _ (by rw [hl]; rfl)

/-- C5: when the target node T is updated, or planned without changes,
the stack helper returns T's current StackData directly and the verify
hook is not invoked; consequently, after Plan(T) finishes with
hasChange = false (planMark), a dependent's reference to T does not
invoke the verify hook. -/
theorem c5_freshness_gate :
    (∀ fuel vf w child name s w',
      child ≠ name → lookupN w name = some s →
      addChildGo fuel w name child = .ok w' →
      (s.updated = true ∨ (s.planned = true ∧ s.hasChange = false)) →
      tplGetStackData fuel vf w child name = (.ok s.data, w', false)) ∧
    (∀ fuel vf w child name s w',
      child ≠ name → lookupN w name = some s →
      addChildGo fuel (planMark w name false) name child = .ok w' →
      tplGetStackData fuel vf (planMark w name false) child name =
        (.ok s.data, w', false)) := by
  have part1 : ∀ fuel vf w child name s w',
      child ≠ name → lookupN w name = some s →
      addChildGo fuel w name child = .ok w' →
      (s.updated = true ∨ (s.planned = true ∧ s.hasChange = false)) →
      tplGetStackData fuel vf w child name = (.ok s.data, w', false) := by
    intro fuel vf w child name s w' hne hl hok hgate
    rw [tplGetStackData, if_neg hne, hl, hok]
    have : (s.updated || (s.planned && !s.hasChange)) = true := by
      rcases hgate with h | ⟨h1, h2⟩
      · simp [h]
      · simp [h1, h2]
    simp [this]
  refine ⟨part1, ?_⟩
  intro fuel vf w child name s w' hne hl hok
  have := part1 fuel vf (planMark w name false) child name
    { s with planned := true, hasChange := false } w' hne
    (lookupN_planMark_self w name false s hl) hok (Or.inr ⟨rfl, rfl⟩)
  exact this

/-- Two fresh stacks A and B. -/
def stacksABExample : ClonWorld :=
  [("A", { data := { configName := "A" } }), ("B", { data := { configName := "B" } })]

/-- Witness for C5: in a world where A has just been planned with no
changes, a reference from B to A comes back with A's data, the verify
hook is not invoked, and only the A -> B reference edge is recorded. -/
theorem c5_freshness_gate_witness :
    tplGetStackData 3 (fun _ => false)
        (planMark stacksABExample "A" false) "B" "A" =
      (.ok { configName := "A" },
        addEdge (planMark stacksABExample "A" false) "A" "B", false) :=
  c5_freshness_gate.2 3 (fun _ => false) stacksABExample "B" "A"
    { data := { configName := "A" } }
    (addEdge (planMark stacksABExample "A" false) "A" "B")
    (by decide) rfl rfl

/-- The chain shape returned by isChild: consecutive entries x, y with
x a member of y's children map. -/
def DownChainP (w : ClonWorld) : List String → Prop
  | [] => True
  | [_] => True
  | x :: y :: rest => x ∈ childrenOf w y ∧ DownChainP w (y :: rest)

/-- A walk along the children maps from s through mids to t. -/
def StepChain (w : ClonWorld) : String → List String → String → Prop
  | s, [], t => t ∈ childrenOf w s
  | s, m :: ms, t => m ∈ childrenOf w s ∧ StepChain w m ms t

/-- t is transitively a child of s. -/
def ReachesDown (w : ClonWorld) (s t : String) : Prop :=
  ∃ mids, StepChain w s mids t

/-- The stack map's config names. -/
def keysOf (w : ClonWorld) : List String := w.map Prod.fst

theorem stepChain_split (w : ClonWorld) :
    ∀ (l1 : List String) (m : String) (l2 : List String) (s t : String),
      StepChain w s (l1 ++ m :: l2) t → StepChain w s l1 m ∧ StepChain w m l2 t := by
  intro l1
  induction l1 with
  | nil =>
    intro m l2 s t h
    exact ⟨h.1, h.2⟩
  | cons x l1 ih =>
    intro m l2 s t h
    obtain ⟨h1, h2⟩ := h
    obtain ⟨h3, h4⟩ := ih m l2 x t h2
    exact ⟨⟨h1, h3⟩, h4⟩

theorem stepChain_join (w : ClonWorld) :
    ∀ (l1 : List String) (m : String) (l2 : List String) (s t : String),
      StepChain w s l1 m → StepChain w m l2 t →
      StepChain w s (l1 ++ m :: l2) t := by
  intro l1
  induction l1 with
  | nil =>
    intro m l2 s t h1 h2
    exact ⟨h1, h2⟩
  | cons x l1 ih =>
    intro m l2 s t h1 h2
    exact ⟨h1.1, ih m l2 x t h1.2 h2⟩

theorem lookup_isSome_of_child (w : ClonWorld) (x y : String)
    (h : y ∈ childrenOf w x) : (lookupN w x).isSome := by
  rw [childrenOf] at h
  match hl : lookupN w x with
  | some n => rfl
  | none => rw [hl] at h; exact absurd h (by simp)

theorem mem_keys_of_lookup (w : ClonWorld) (x : String)
    (h : (lookupN w x).isSome) : x ∈ keysOf w := by
  induction w with
  | nil => simp [lookupN] at h
  | cons kv rest ih =>
    by_cases hk : kv.1 = x
    · simp [keysOf, hk]
    · rw [lookupN, if_neg hk] at h
      simp [keysOf]
      right
      simpa [keysOf] using ih h

theorem stepChain_sources (w : ClonWorld) :
    ∀ (mids : List String) (s t : String), StepChain w s mids t →
      ∀ x ∈ s :: mids, (lookupN w x).isSome := by
  intro mids
  induction mids with
  | nil =>
    intro s t h x hx
    rw [List.mem_singleton] at hx
    subst hx
    exact lookup_isSome_of_child w x t h
  | cons m ms ih =>
    intro s t h x hx
    rcases List.mem_cons.mp hx with hx | hx
    · subst hx
      exact lookup_isSome_of_child w x m h.1
    · exact ih m t h.2 x hx

theorem nodup_subset_length {α : Type} [DecidableEq α] (l1 l2 : List α)
    (hnd : l1.Nodup) (hsub : ∀ x ∈ l1, x ∈ l2) : l1.length ≤ l2.length := by
  calc l1.length = l1.toFinset.card := (List.toFinset_card_of_nodup hnd).symm
    _ ≤ l2.toFinset.card := by
        apply Finset.card_le_card
        intro x hx
        rw [List.mem_toFinset] at *
        exact hsub x hx
    _ ≤ l2.length := l2.toFinset_card_le

theorem not_nodup_split {α : Type} [DecidableEq α] :
    ∀ (l : List α), ¬l.Nodup →
      ∃ a l1 l2 l3, l = l1 ++ a :: l2 ++ a :: l3 := by
  intro l
  induction l with
  | nil => intro h; exact absurd List.nodup_nil h
  | cons x xs ih =>
    intro h
    rw [List.nodup_cons] at h
    push_neg at h
    by_cases hx : x ∈ xs
    · obtain ⟨p, q, hpq⟩ := List.append_of_mem hx
      exact ⟨x, [], p, q, by rw [hpq]; rfl⟩
    · obtain ⟨a, l1, l2, l3, heq⟩ := ih (h hx)
      exact ⟨a, x :: l1, l2, l3, by rw [heq]; rfl⟩

theorem stepChain_shorten (w : ClonWorld) :
    ∀ (n : Nat) (s : String) (mids : List String) (t : String),
      mids.length ≤ n → StepChain w s mids t →
      ∃ mids', StepChain w s mids' t ∧ (s :: mids').Nodup ∧
        mids'.length ≤ mids.length := by
  intro n
  induction n with
  | zero =>
    intro s mids t hlen hchain
    rw [Nat.le_zero, List.length_eq_zero] at hlen
    subst hlen
    exact ⟨[], hchain, by simp, le_rfl⟩
  | succ n ih =>
    intro s mids t hlen hchain
    by_cases hnd : (s :: mids).Nodup
    · exact ⟨mids, hchain, hnd, le_rfl⟩
    · obtain ⟨a, l1, l2, l3, heq⟩ := not_nodup_split _ hnd
      cases l1 with
      | nil =>
        rw [List.nil_append] at heq
        have hs : s = a := (List.cons_eq_cons.mp heq).1
        have hm : mids = l2 ++ a :: l3 := (List.cons_eq_cons.mp heq).2
        subst hs
        rw [hm] at hchain
        have h2 := (stepChain_split w l2 s l3 s t hchain).2
        have hlen3 : l3.length ≤ n := by
          rw [hm] at hlen
          simp only [List.length_append, List.length_cons] at hlen
          omega
        obtain ⟨mids', hc, hnd', hle⟩ := ih s l3 t hlen3 h2
        refine ⟨mids', hc, hnd', ?_⟩
        rw [hm]
        simp only [List.length_append, List.length_cons]
        omega
      | cons x l1 =>
        rw [List.cons_append] at heq
        have hs : s = x := (List.cons_eq_cons.mp heq).1
        have hm0 : mids = l1 ++ a :: l2 ++ a :: l3 :=
          (List.cons_eq_cons.mp heq).2
        have hm : mids = l1 ++ a :: (l2 ++ a :: l3) := by
          rw [hm0]
          simp
        subst hs
        rw [hm] at hchain
        obtain ⟨hc1, hc2⟩ := stepChain_split w l1 a (l2 ++ a :: l3) s t hchain
        have hc3 := (stepChain_split w l2 a l3 a t hc2).2
        have hjoin := stepChain_join w l1 a l3 s t hc1 hc3
        have hlenj : (l1 ++ a :: l3).length ≤ n := by
          rw [hm] at hlen
          simp only [List.length_append, List.length_cons] at hlen ⊢
          omega
        obtain ⟨mids', hc, hnd', hle⟩ := ih s (l1 ++ a :: l3) t hlenj hjoin
        refine ⟨mids', hc, hnd', ?_⟩
        rw [hm]
        simp only [List.length_append, List.length_cons] at hle ⊢
        omega

theorem isChildScan_mem_found (rec : String → Option (List String))
    (s name : String) :
    ∀ cs, name ∈ cs → isChildScan rec s name cs ≠ none := by
  intro cs
  induction cs with
  | nil => intro h; exact absurd h (by simp)
  | cons n rest ih =>
    intro h
    rw [isChildScan]
    by_cases hn : n = name
    · simp [hn]
    · rcases List.mem_cons.mp h with hh | hh
      · exact absurd hh.symm hn
      · match hr : rec n with
        | some r => simp [hn, hr]
        | none => simpa [hn, hr] using ih hh

theorem isChildScan_rec_found (rec : String → Option (List String))
    (s name m : String) (hm : rec m ≠ none) :
    ∀ cs, m ∈ cs → isChildScan rec s name cs ≠ none := by
  intro cs
  induction cs with
  | nil => intro h; exact absurd h (by simp)
  | cons n rest ih =>
    intro h
    rw [isChildScan]
    by_cases hn : n = name
    · simp [hn]
    · match hr : rec n with
      | some r => simp [hn, hr]
      | none =>
        rcases List.mem_cons.mp h with hh | hh
        · rw [hh] at hm
          exact absurd hr hm
        · simpa [hn, hr] using ih hh

/-- Completeness of the DFS: any walk shorter than the fuel is found. -/
theorem stepChain_found (w : ClonWorld) :
    ∀ (mids : List String) (s t : String) (fuel : Nat),
      StepChain w s mids t → mids.length < fuel →
      isChildGo fuel w s t ≠ none := by
  intro mids
  induction mids with
  | nil =>
    intro s t fuel h hlen
    match fuel, hlen with
    | fuel + 1, _ =>
      rw [isChildGo]
      exact isChildScan_mem_found _ s t (childrenOf w s) h
  | cons m ms ih =>
    intro s t fuel h hlen
    match fuel, hlen with
    | fuel + 1, hlen =>
      rw [isChildGo]
      have hrec : isChildGo fuel w m t ≠ none :=
        ih m t fuel h.2 (by simpa using Nat.lt_of_succ_lt_succ hlen)
      exact isChildScan_rec_found _ s t m hrec (childrenOf w s) h.1

theorem dcp_append_single (w : ClonWorld) :
    ∀ (l : List String) (n s : String), DownChainP w l →
      l.getLast? = some n → n ∈ childrenOf w s → DownChainP w (l ++ [s]) := by
  intro l
  induction l with
  | nil => intro n s _ h; exact absurd h (by simp)
  | cons x rest ih =>
    intro n s hdc hlast hmem
    cases rest with
    | nil =>
      simp only [List.getLast?_singleton, Option.some.injEq] at hlast
      subst hlast
      exact ⟨hmem, trivial⟩
    | cons y rest2 =>
      rw [List.getLast?_cons_cons] at hlast
      exact ⟨hdc.1, ih n s hdc.2 hlast hmem⟩

theorem isChildScan_sound (w : ClonWorld)
    (rec : String → Option (List String)) (s name : String)
    (hrec : ∀ n r, rec n = some r →
      DownChainP w r ∧ r.head? = some name ∧ r.getLast? = some n) :
    ∀ cs chain, (∀ n ∈ cs, n ∈ childrenOf w s) →
      isChildScan rec s name cs = some chain →
      DownChainP w chain ∧ chain.head? = some name ∧
        chain.getLast? = some s := by
  intro cs
  induction cs with
  | nil => intro chain _ h; exact absurd h (by simp [isChildScan])
  | cons n rest ih =>
    intro chain hmem h
    rw [isChildScan] at h
    by_cases hn : n = name
    · rw [if_pos hn] at h
      simp only [Option.some.injEq] at h
      subst h
      subst hn
      exact ⟨⟨hmem n (by simp), trivial⟩, rfl, rfl⟩
    · rw [if_neg hn] at h
      match hr : rec n with
      | some r =>
        rw [hr] at h
        simp only [Option.some.injEq] at h
        subst h
        obtain ⟨hdc, hhead, hlast⟩ := hrec n r hr
        have hne : r ≠ [] := by
          intro hnil
          rw [hnil] at hlast
          exact absurd hlast (by simp)
        refine ⟨dcp_append_single w r n s hdc hlast (hmem n (by simp)), ?_, ?_⟩
        · rw [← hhead]
          cases r with
          | nil => exact absurd rfl hne
          | cons a as => rfl
        · simp [List.getLast?_concat]
      | none =>
        rw [hr] at h
        exact ih chain (fun x hx => hmem x (by simp [hx])) h

/-- Soundness of the DFS: a returned chain really is a child-map walk
from the searched name up to the starting node. -/
theorem isChildGo_sound (w : ClonWorld) :
    ∀ (fuel : Nat) (s name : String) (chain : List String),
      isChildGo fuel w s name = some chain →
      DownChainP w chain ∧ chain.head? = some name ∧
        chain.getLast? = some s := by
  intro fuel
  induction fuel with
  | zero => intro s name chain h; exact absurd h (by simp [isChildGo])
  | succ fuel ih =>
    intro s name chain h
    rw [isChildGo] at h
    exact isChildScan_sound w _ s name (fun n r hr => ih n name r hr)
      (childrenOf w s) chain (fun n hn => by rwa [childrenOf] at hn ⊢) h

/-- The executable acyclicity check over the stack map. -/
def acyclicCheck (w : ClonWorld) : Bool :=
  w.all (fun kv => (isChildGo (w.length + 1) w kv.1 kv.1).isNone)

/-- A successful check means no stack reaches itself. -/
theorem acyclic_of_check (w : ClonWorld) (h : acyclicCheck w = true) :
    ∀ a, ¬ ReachesDown w a a := by
  intro a ⟨mids, hchain⟩
  obtain ⟨mids', hc, hnd, -⟩ :=
    stepChain_shorten w mids.length a mids a le_rfl hchain
  have hsub : ∀ x ∈ a :: mids', x ∈ keysOf w := by
    intro x hx
    exact mem_keys_of_lookup w x (stepChain_sources w mids' a a hc x hx)
  have hlen : (a :: mids').length ≤ (keysOf w).length :=
    nodup_subset_length _ _ hnd hsub
  have hklen : (keysOf w).length = w.length := by simp [keysOf]
  have hfound : isChildGo (w.length + 1) w a a ≠ none := by
    apply stepChain_found w mids' a a (w.length + 1) hc
    simp only [List.length_cons] at hlen
    omega
  have hmem : a ∈ keysOf w := hsub a (by simp)
  rw [keysOf] at hmem
  obtain ⟨kv, hkv, hfst⟩ := List.mem_map.mp hmem
  rw [acyclicCheck, List.all_eq_true] at h
  have := h kv hkv
  rw [hfst] at this
  rw [Option.isNone_iff_eq_none] at this
  exact hfound this

theorem addEdge_of_lookup_none (w : ClonWorld) (s child : String)
    (h : lookupN w s = none) : addEdge w s child = w := by
  rw [addEdge, h]

theorem childrenOf_addEdge_other (w : ClonWorld) (s child x : String)
    (hx : x ≠ s) : childrenOf (addEdge w s child) x = childrenOf w x := by
  rw [addEdge]
  match hl : lookupN w s with
  | none => rfl
  | some n =>
    rw [childrenOf, childrenOf, lookupN_setNode_other w s x _ hx]

theorem childrenOf_addEdge_self (w : ClonWorld) (s child : String)
    (hs : (lookupN w s).isSome) :
    childrenOf (addEdge w s child) s = childrenOf w s ++ [child] := by
  rw [addEdge]
  match hl : lookupN w s with
  | none => rw [hl] at hs; exact absurd hs (by simp)
  | some n =>
    rw [childrenOf, lookupN_setNode_self w s _ (by rw [hl]; rfl), childrenOf, hl]

theorem stepChain_drop_edge (w : ClonWorld) (s child : String) :
    ∀ (mids : List String) (x y : String),
      StepChain (addEdge w s child) x mids y → s ∉ x :: mids →
      StepChain w x mids y := by
  intro mids
  induction mids with
  | nil =>
    intro x y h hs
    have hx : x ≠ s := fun hh => hs (by simp [hh])
    rw [StepChain] at h ⊢
    rwa [childrenOf_addEdge_other w s child x hx] at h
  | cons m ms ih =>
    intro x y h hs
    rw [List.mem_cons] at hs
    push_neg at hs
    obtain ⟨hsx, hsrest⟩ := hs
    obtain ⟨hh1, hh2⟩ := h
    refine ⟨?_, ih m y hh2 hsrest⟩
    rwa [childrenOf_addEdge_other w s child x (Ne.symm hsx)] at hh1

theorem stepChain_rotate (w : ClonWorld) (a : String) (mids : List String)
    (m : String) (hchain : StepChain w a mids a) (hm : m ∈ a :: mids) :
    ∃ mids2, StepChain w m mids2 m ∧ (m :: mids2).Perm (a :: mids) := by
  rcases List.mem_cons.mp hm with hma | hmm
  · subst hma
    exact ⟨mids, hchain, List.Perm.refl _⟩
  · obtain ⟨p, q, hpq⟩ := List.append_of_mem hmm
    subst hpq
    obtain ⟨h1, h2⟩ := stepChain_split w p m q a a hchain
    have hjoin := stepChain_join w q a p m m h2 h1
    refine ⟨q ++ a :: p, hjoin, ?_⟩
    have p1 : (m :: (q ++ a :: p)).Perm (m :: a :: (q ++ p)) :=
      List.Perm.cons m List.perm_middle
    have p2 : (m :: a :: (q ++ p)).Perm (a :: m :: (q ++ p)) :=
      List.Perm.swap a m (q ++ p)
    have p3 : (a :: m :: (q ++ p)).Perm (a :: m :: (p ++ q)) :=
      List.Perm.cons a (List.Perm.cons m List.perm_append_comm)
    have p4 : (a :: (p ++ m :: q)).Perm (a :: m :: (p ++ q)) :=
      List.Perm.cons a List.perm_middle
    exact ((p1.trans p2).trans p3).trans p4.symm

/-- A walk found by the DFS with the program's standard fuel. -/
theorem reaches_found (w : ClonWorld) (s t : String)
    (h : ReachesDown w s t) : isChildGo (w.length + 1) w s t ≠ none := by
  obtain ⟨mids, hchain⟩ := h
  obtain ⟨mids', hc, hnd, -⟩ :=
    stepChain_shorten w mids.length s mids t le_rfl hchain
  have hsub : ∀ x ∈ s :: mids', x ∈ keysOf w := by
    intro x hx
    exact mem_keys_of_lookup w x (stepChain_sources w mids' s t hc x hx)
  have hlen : (s :: mids').length ≤ (keysOf w).length :=
    nodup_subset_length _ _ hnd hsub
  have hklen : (keysOf w).length = w.length := by simp [keysOf]
  apply stepChain_found w mids' s t (w.length + 1) hc
  simp only [List.length_cons] at hlen
  omega

/-- Adding the checked edge cannot create a cycle. -/
theorem addEdge_preserves_acyclic (w : ClonWorld) (s child : String)
    (hne : child ≠ s) (hacyc : ∀ a, ¬ ReachesDown w a a)
    (hnr : ¬ ReachesDown w child s) :
    ∀ a, ¬ ReachesDown (addEdge w s child) a a := by
  intro a ⟨mids, hchain⟩
  match hlk : lookupN w s with
  | none =>
    rw [addEdge_of_lookup_none w s child hlk] at hchain
    exact hacyc a ⟨mids, hchain⟩
  | some n0 =>
    have hs : (lookupN w s).isSome := by rw [hlk]; rfl
    obtain ⟨mids', hc, hnd, -⟩ :=
      stepChain_shorten (addEdge w s child) mids.length a mids a le_rfl hchain
    by_cases hsin : s ∈ a :: mids'
    · obtain ⟨mids2, hc2, hperm⟩ :=
        stepChain_rotate (addEdge w s child) a mids' s hc hsin
      have hnd2 : (s :: mids2).Nodup := hperm.nodup_iff.mpr hnd
      cases mids2 with
      | nil =>
        rw [StepChain, childrenOf_addEdge_self w s child hs] at hc2
        rcases List.mem_append.mp hc2 with hmem | hmem
        · exact hacyc s ⟨[], hmem⟩
        · have hsc : s = child := by simpa using hmem
          exact hne hsc.symm
      | cons y rest =>
        obtain ⟨hy, hrest⟩ := hc2
        have hsnot : s ∉ y :: rest := by
          rw [List.nodup_cons] at hnd2
          exact hnd2.1
        have hrest' : StepChain w y rest s :=
          stepChain_drop_edge w s child rest y s hrest hsnot
        rw [childrenOf_addEdge_self w s child hs] at hy
        rcases List.mem_append.mp hy with hmem | hmem
        · exact hacyc s ⟨y :: rest, hmem, hrest'⟩
        · have hyc : y = child := by simpa using hmem
          subst hyc
          exact hnr ⟨rest, hrest'⟩
    · exact hacyc a ⟨mids', stepChain_drop_edge w s child mids' a a hc hsin⟩

/-- The A/B world after planning A: rendering A read stack B, so A was
recorded as a child of B. -/
def stacksBAExample : ClonWorld :=
  [("A", { data := { configName := "A" } }),
   ("B", { children := ["A"], data := { configName := "B" } })]

/-- C3: (a) in the mutual A/B scenario, rendering B's reference to A
fails with the cyclic-dependency chain [A, B, A], whose message joins
the chain with arrows, and leaves the world unchanged; (b) in general,
whenever rendering S resolves a reference to T and T is already
transitively a child of S in an acyclic world, the helper fails with a
cyclic error carrying a complete chain — a genuine child-map walk from
T up to S, closed by appending T — and the edge is not added; (c) any
edge accepted by addChild keeps every stack off its own descendant
set. -/
theorem c3_cycle_detection :
    ((∀ vf, tplGetStackData 3 vf stacksBAExample "B" "A" =
        (.error (.cyclic ["A", "B", "A"]), stacksBAExample, false)) ∧
      cyclicMsg ["A", "B", "A"] =
        "cyclic dependency between stacks: A -> B -> A") ∧
    (∀ w S T, S ≠ T → (∀ a, ¬ ReachesDown w a a) → ReachesDown w S T →
      ∃ chain, addChildGo (w.length + 1) w T S = .error (chain ++ [T]) ∧
        DownChainP w chain ∧ chain.head? = some T ∧
        chain.getLast? = some S ∧
        (∀ vf s0, lookupN w T = some s0 →
          tplGetStackData (w.length + 1) vf w S T =
            (.error (.cyclic (chain ++ [T])), w, false))) ∧
    (∀ w S T w2, S ≠ T → (∀ a, ¬ ReachesDown w a a) →
      addChildGo (w.length + 1) w T S = .ok w2 →
      ∀ a, ¬ ReachesDown w2 a a) := by
  refine ⟨⟨fun vf => by rfl, by rfl⟩, ?_, ?_⟩
  · intro w S T hne hacyc hreach
    have hnotmem : S ∉ childrenOf w T := by
      intro hmem
      obtain ⟨mids, hchain⟩ := hreach
      exact hacyc S ⟨mids ++ T :: [],
        stepChain_join w mids T [] S S hchain hmem⟩
    have hfound := reaches_found w S T hreach
    match hchain : isChildGo (w.length + 1) w S T with
    | none => exact absurd hchain hfound
    | some chain =>
      obtain ⟨hdc, hhead, hlast⟩ := isChildGo_sound w (w.length + 1) S T chain hchain
      have haddc : addChildGo (w.length + 1) w T S = .error (chain ++ [T]) := by
        rw [addChildGo, if_neg hnotmem, hchain]
      refine ⟨chain, haddc, hdc, hhead, hlast, ?_⟩
      intro vf s0 hl
      rw [tplGetStackData, if_neg hne, hl, haddc]
  · intro w S T w2 hne hacyc hok a
    rw [addChildGo] at hok
    by_cases hmem : S ∈ childrenOf w T
    · rw [if_pos hmem] at hok
      simp only [Except.ok.injEq] at hok
      rw [← hok]
      exact hacyc a
    · rw [if_neg hmem] at hok
      match hchain : isChildGo (w.length + 1) w S T with
      | some chain => rw [hchain] at hok; exact absurd hok (by simp)
      | none =>
        rw [hchain] at hok
        simp only [Except.ok.injEq] at hok
        rw [← hok]
        have hnr : ¬ ReachesDown w S T := by
          intro hr
          exact reaches_found w S T hr hchain
        exact addEdge_preserves_acyclic w T S hne hacyc hnr a

/-- Witness for C3: the general cycle rejection applied to the concrete
A/B world (B already reaches A), and edge acceptance applied to the
fresh A/B world, keeping it acyclic. -/
theorem c3_cycle_detection_witness :
    (∃ chain,
      addChildGo 3 stacksBAExample "A" "B" = .error (chain ++ ["A"]) ∧
      DownChainP stacksBAExample chain ∧ chain.head? = some "A" ∧
      chain.getLast? = some "B" ∧
      (∀ vf s0, lookupN stacksBAExample "A" = some s0 →
        tplGetStackData 3 vf stacksBAExample "B" "A" =
          (.error (.cyclic (chain ++ ["A"])), stacksBAExample, false))) ∧
    ¬ ReachesDown (addEdge stacksABExample "A" "B") "A" "A" := by
  constructor
  · exact c3_cycle_detection.2.1 stacksBAExample "B" "A" (by decide)
      (acyclic_of_check stacksBAExample (by decide))
      ⟨[], (by decide : ("A" : String) ∈ childrenOf stacksBAExample "B")⟩
  · exact c3_cycle_detection.2.2 stacksABExample "B" "A"
      (addEdge stacksABExample "A" "B") (by decide)
      (acyclic_of_check stacksABExample (by decide)) rfl "A"

/-- Witness for C8: the FAILED/no-changes pair is suppressed, FAILED
with another reason is a failure, and a completed status never is. -/
theorem c8_isFailed_suppression_witness :
    changeSetIsFailed { status := "FAILED", statusReason := noChangesReason } =
      false ∧
    changeSetIsFailed { status := "FAILED", statusReason := "boom" } = true ∧
    changeSetIsFailed { status := "CREATE_COMPLETE" } = false := by
  refine ⟨?_, ?_, ?_⟩
  · rw [c8_isFailed_suppression]
    decide
  · rw [c8_isFailed_suppression]
    decide
  · rw [c8_isFailed_suppression]
    decide

/-- Witness for C10: concrete stack name and error message. -/
theorem c10_validation_error_is_not_found_witness :
    stackRead (.awsErr "ValidationError" "1 validation error detected") =
      .ok none ∧
    stackReadSnapshot "demo-A"
        (.awsErr "ValidationError" "1 validation error detected") =
      .ok { name := "demo-A", status := stackStatusNotFound } :=
  ⟨(c10_validation_error_is_not_found "demo-A"
      "1 validation error detected").1,
   (c10_validation_error_is_not_found "demo-A"
      "1 validation error detected").2.1⟩

/-- Witness for C7: the deadlock fact evaluated at fuel 2. -/
theorem c7_self_child_not_noop_witness :
    closeGo 2 [] closerSelfExample 0 none = none :=
  c7_self_child_not_noop.2.2.2 2
